import Mathlib

/-!
Verification of the chunked key-value persistence layer of the repository
(`functions/api/storage.ts`): the Chunk Codec (`needsChunking`, `chunkValue`,
`reconstructValue`) and the Chunked Store (`onRequest` cases `get`, `put`,
`delete`).

Strings are modelled as lists of Unicode scalar values (`Str := List Char`);
`TextEncoder.encode` / `TextDecoder.decode` are modelled by an explicit UTF-8
byte codec over `List Nat`.  The backing Cloudflare KV namespace is modelled
as a function from physical keys to optional stored strings; `JSON.parse` of
document payloads is an opaque host primitive and is modelled as an abstract
parameter `jsonParse : Str → Option J`.
-/

set_option maxHeartbeats 1000000

abbrev Str := List Char

/-- UTF-8 encoding of one Unicode scalar value (what `TextEncoder` emits for a
single code point; Lean `Char` is exactly a Unicode scalar value). -/
def utf8EncodeChar (c : Char) : List Nat :=
  let n := c.toNat
  if n < 0x80 then [n]
  else if n < 0x800 then [0xC0 + n / 64, 0x80 + n % 64]
  else if n < 0x10000 then [0xE0 + n / 4096, 0x80 + (n / 64) % 64, 0x80 + n % 64]
  else [0xF0 + n / 262144, 0x80 + (n / 4096) % 64, 0x80 + (n / 64) % 64, 0x80 + n % 64]

/-- `new TextEncoder().encode(value)` — the UTF-8 byte sequence of a string. -/
def utf8Encode (s : Str) : List Nat := s.flatMap utf8EncodeChar

/-- `encoder.encode(value).length` — UTF-8 byte length. -/
def utf8ByteLength (s : Str) : Nat := (utf8Encode s).length

/-- `MAX_CHUNK_SIZE = 20 * 1024 * 1024` from `storage.ts`. -/
def MAX_CHUNK_SIZE : Nat := 20 * 1024 * 1024

/-- `needsChunking` from `storage.ts`: true iff the UTF-8 byte length strictly
exceeds `MAX_CHUNK_SIZE`. -/
def needsChunking (value : Str) : Bool :=
  decide (MAX_CHUNK_SIZE < (utf8Encode value).length)

/-- `(b & 0xC0) === 0x80` — `b` is a UTF-8 continuation byte. -/
def isContByte (b : Nat) : Bool := decide (b % 256 / 64 = 2)

/-- The replacement character U+FFFD produced by `TextDecoder` for invalid
byte sequences. -/
def replChar : Char := Char.ofNat 0xFFFD

/-- The backoff loop of `chunkValue`:
`while (chunkEnd > i && (bytes[chunkEnd] & 0xC0) === 0x80) chunkEnd--`. -/
def backOff (bytes : List Nat) (i : Nat) (e : Nat) : Nat :=
  if i < e ∧ isContByte (bytes.getD e 0) then backOff bytes i (e - 1) else e
termination_by e
decreasing_by omega

/-- The chunking loop of `chunkValue`, parameterised over the chunk size so
small instances can be reasoned about; the source always calls it with
`csize = MAX_CHUNK_SIZE` (and the `0 < csize` guard is then always true).
One iteration per `i = 0, csize, 2*csize, ...` below `bytes.length`; note the
loop variable advances by `csize` even when `chunkEnd` was backed off. -/
def chunkLoop (csize : Nat) (bytes : List Nat) (i : Nat) : List (List Nat) :=
  if _h : i < bytes.length ∧ 0 < csize then
    let ce0 := min (i + csize) bytes.length
    let ce := if ce0 < bytes.length then backOff bytes i ce0 else ce0
    ((bytes.drop i).take (ce - i)) :: chunkLoop csize bytes (i + csize)
  else []
termination_by bytes.length - i
decreasing_by omega

/-- `TextDecoder.decode` (default, non-fatal mode): WHATWG UTF-8 decoding with
U+FFFD replacement for invalid sequences, including reconsuming a
non-continuation byte after emitting a replacement. -/
def utf8Decode : List Nat → List Char
  | [] => []
  | b :: bs =>
    if b ≤ 0x7F then Char.ofNat b :: utf8Decode bs
    else if 0xC2 ≤ b ∧ b ≤ 0xDF then
      match bs with
      | [] => [replChar]
      | b1 :: bs1 =>
        if isContByte b1 then
          Char.ofNat ((b - 0xC0) * 64 + (b1 - 0x80)) :: utf8Decode bs1
        else replChar :: utf8Decode (b1 :: bs1)
    else if 0xE0 ≤ b ∧ b ≤ 0xEF then
      match bs with
      | [] => [replChar]
      | b1 :: bs1 =>
        if (if b = 0xE0 then 0xA0 else 0x80) ≤ b1 ∧
            b1 ≤ (if b = 0xED then 0x9F else 0xBF) then
          match bs1 with
          | [] => [replChar]
          | b2 :: bs2 =>
            if isContByte b2 then
              Char.ofNat ((b - 0xE0) * 4096 + (b1 - 0x80) * 64 + (b2 - 0x80)) ::
                utf8Decode bs2
            else replChar :: utf8Decode (b2 :: bs2)
        else replChar :: utf8Decode (b1 :: bs1)
    else if 0xF0 ≤ b ∧ b ≤ 0xF4 then
      match bs with
      | [] => [replChar]
      | b1 :: bs1 =>
        if (if b = 0xF0 then 0x90 else 0x80) ≤ b1 ∧
            b1 ≤ (if b = 0xF4 then 0x8F else 0xBF) then
          match bs1 with
          | [] => [replChar]
          | b2 :: bs2 =>
            if isContByte b2 then
              match bs2 with
              | [] => [replChar]
              | b3 :: bs3 =>
                if isContByte b3 then
                  Char.ofNat ((b - 0xF0) * 262144 + (b1 - 0x80) * 4096 +
                      (b2 - 0x80) * 64 + (b3 - 0x80)) :: utf8Decode bs3
                else replChar :: utf8Decode (b3 :: bs3)
            else replChar :: utf8Decode (b2 :: bs2)
        else replChar :: utf8Decode (b1 :: bs1)
    else replChar :: utf8Decode bs
termination_by l => l.length
decreasing_by all_goals simp_all <;> omega

/-- `chunkValue` from `storage.ts`: encode to UTF-8 bytes, cut into windows of
`MAX_CHUNK_SIZE` bytes with continuation-byte backoff at interior boundaries,
and decode each window back to a string. -/
def chunkValue (value : Str) : List Str :=
  (chunkLoop MAX_CHUNK_SIZE (utf8Encode value) 0).map utf8Decode

/-! ### The Chunked Store

Physical keys and the backing KV namespace.  `STORAGE_KV` is modelled as a
function from physical keys to optional stored strings.  The metadata value
written by the store is the JSON text of the object with field chunks, and the
shape check done on `get(..., 'json')` of a metadata key
(`metadata && typeof metadata === 'object' && 'chunks' in metadata`) is
modelled by the syntactic partial inverse `parseChunks`, which recognises
exactly the metadata strings the store itself writes. -/

/-- One decimal digit character, as JS number-to-string formatting emits. -/
def digitChar (n : Nat) : Char := Char.ofNat (48 + n % 10)

/-- Decimal representation of a natural number, modelling the template-literal
interpolation of a chunk index in `${fullKey}__chunk_${i}`. -/
def natRepr (n : Nat) : Str :=
  if n < 10 then [digitChar n] else natRepr (n / 10) ++ [digitChar (n % 10)]
termination_by n
decreasing_by exact Nat.div_lt_self (by omega) (by omega)

/-- Value of a string of decimal digits. -/
def digitsToNat (ds : Str) : Nat := ds.foldl (fun a c => a * 10 + (c.toNat - 48)) 0

/-- `${fullKey}__chunks__` — the chunk metadata key (`CHUNK_METADATA_KEY`). -/
def metaKey (k : Str) : Str := k ++ "__chunks__".toList

/-- `${fullKey}__chunk_${i}` — the i-th chunk key. -/
def chunkKey (k : Str) (i : Nat) : Str := k ++ "__chunk_".toList ++ natRepr i

/-- `JSON.stringify({ chunks: n })` — the metadata string the store writes. -/
def metaString (n : Nat) : Str :=
  "\x7b\"chunks\":".toList ++ natRepr n ++ [Char.ofNat 125]

/-- `c` is a decimal digit character. -/
def isDigitCh (c : Char) : Bool := decide (48 ≤ c.toNat ∧ c.toNat ≤ 57)

/-- Recognise the metadata strings written by the store and extract the chunk
count: models reading the metadata key with type `'json'` and checking
`metadata && typeof metadata === 'object' && 'chunks' in metadata`. -/
def parseChunks (s : Str) : Option Nat :=
  if s.take 10 = "\x7b\"chunks\":".toList then
    match (s.drop 10).reverse with
    | [] => none
    | c :: revds =>
      if c = Char.ofNat 125 ∧ revds ≠ [] ∧ revds.all isDigitCh then
        some (digitsToNat revds.reverse)
      else none
  else none

/-- The backing KV namespace: physical key → stored string. -/
def Store : Type := Str → Option Str

/-- `STORAGE_KV.put(key, v)`. -/
def kvPut (st : Store) (k v : Str) : Store := fun q => if q = k then some v else st q

/-- `STORAGE_KV.delete(key)`. -/
def kvDel (st : Store) (k : Str) : Store := fun q => if q = k then none else st q

/-- One backing-store call issued by an operation, in program order. -/
inductive Event where
  | getJson : Str → Event
  | getText : Str → Event
  | put : Str → Str → Event
  | del : Str → Event
deriving DecidableEq

/-- The loop of `reconstructValue`, reading chunk keys `i, i+1, ...` while
`rem` chunks remain: a chunk that reads back null **or empty** (`if (!chunk)`)
aborts the whole reconstruction with null. -/
def reconstructFrom (st : Store) (k : Str) (i : Nat) : Nat → Option Str
  | 0 => some []
  | rem + 1 =>
    match st (chunkKey k i) with
    | none => none
    | some c => if c = [] then none else (reconstructFrom st k (i + 1) rem).map (c ++ ·)

/-- `reconstructValue` from `storage.ts`: read chunks `0..numChunks-1` in
order, fail-fast on a missing (falsy) chunk, else join them. -/
def reconstructValue (st : Store) (baseKey : Str) (numChunks : Nat) : Option Str :=
  reconstructFrom st baseKey 0 numChunks

/-- Delete chunk keys `i .. i+rem-1` in ascending order, returning the new
store and the trace of delete calls (the cleanup loops of `put` / `delete`). -/
def delChunksFrom (st : Store) (k : Str) (i : Nat) : Nat → Store × List Event
  | 0 => (st, [])
  | rem + 1 =>
    let st1 := kvDel st (chunkKey k i)
    let r := delChunksFrom st1 k (i + 1) rem
    (r.1, .del (chunkKey k i) :: r.2)

/-- Write the chunk strings `cs` to chunk keys `i, i+1, ...` in ascending
order, returning the new store and the trace of put calls. -/
def writeChunksFrom (st : Store) (k : Str) (i : Nat) : List Str → Store × List Event
  | [] => (st, [])
  | c :: rest =>
    let st1 := kvPut st (chunkKey k i) c
    let r := writeChunksFrom st1 k (i + 1) rest
    (r.1, .put (chunkKey k i) c :: r.2)

/-- The old-chunk cleanup at the head of the chunked `put` branch: read the
old metadata and, when it names `m` chunks, delete chunk keys `0..m-1`. -/
def cleanupChunks (st : Store) (k : Str) : Store × List Event :=
  match (st (metaKey k)).bind parseChunks with
  | some m => delChunksFrom st k 0 m
  | none => (st, [])

/-- `onRequest` case `'put'`, acting on the serialized string `s`
(`jsonString`) for full key `k`: chunked branch deletes the old chunks named
by the old metadata, writes the new chunks in index order, then the metadata,
then deletes the plain key; plain branch deletes old chunks and metadata, then
writes the plain key.  Returns the final store and the trace of KV calls. -/
def putOp (st : Store) (k s : Str) : Store × List Event :=
  if needsChunking s then
    let cleanup := cleanupChunks st k
    let cs := chunkValue s
    let written := writeChunksFrom cleanup.1 k 0 cs
    let st3 := kvPut written.1 (metaKey k) (metaString cs.length)
    let st4 := kvDel st3 k
    (st4, .getJson (metaKey k) :: cleanup.2 ++ written.2 ++
      [.put (metaKey k) (metaString cs.length), .del k])
  else
    let cleanup :=
      match (st (metaKey k)).bind parseChunks with
      | some m =>
        let r := delChunksFrom st k 0 m
        (kvDel r.1 (metaKey k), r.2 ++ [Event.del (metaKey k)])
      | none => (st, [])
    (kvPut cleanup.1 k s, .getJson (metaKey k) :: cleanup.2 ++ [.put k s])

/-- What `get` puts in the `data` field on success. -/
inductive DataVal (J : Type) where
  | json : J → DataVal J
  | raw : Str → DataVal J
deriving DecidableEq

/-- Response of `onRequest` case `'get'`: `ok d` is the 200 response
`\x7bsuccess: true, data: d\x7d` (`none` = JSON null); `err` is the 500
response produced when a thrown error (e.g. a failing `'json'` read of the
plain key) reaches the outer catch. -/
inductive GetResp (J : Type) where
  | ok : Option (DataVal J) → GetResp J
  | err : GetResp J
deriving DecidableEq

/-- The tail of the `'get'` case: read the plain (non-chunked) key with type
`'json'` and return whatever is stored (`data: stored`), null when absent. -/
def plainRead {J : Type} (jsonParse : Str → Option J) (st : Store) (k : Str) : GetResp J :=
  match st k with
  | none => GetResp.ok none
  | some s =>
    match jsonParse s with
    | some j => GetResp.ok (some (DataVal.json j))
    | none => GetResp.err

/-- `onRequest` case `'get'` for full key `k`: if the metadata key holds a
chunk count, reconstruct; on a truthy reconstruction, `JSON.parse` it and
return the parsed document, falling back to the raw string when parsing
throws; otherwise (no metadata, falsy reconstruction) fall through to the
plain key. -/
def getOp {J : Type} (jsonParse : Str → Option J) (st : Store) (k : Str) : GetResp J :=
  match (st (metaKey k)).bind parseChunks with
  | some n =>
    match reconstructValue st k n with
    | some r =>
      if r = [] then plainRead jsonParse st k
      else
        match jsonParse r with
        | some j => GetResp.ok (some (DataVal.json j))
        | none => GetResp.ok (some (DataVal.raw r))
    | none => plainRead jsonParse st k
  | none => plainRead jsonParse st k

/-- `onRequest` case `'delete'` for full key `k`: delete the chunks named by
the metadata and the metadata key, then the plain key. -/
def deleteOp (st : Store) (k : Str) : Store :=
  let st1 :=
    match (st (metaKey k)).bind parseChunks with
    | some n => kvDel (delChunksFrom st k 0 n).1 (metaKey k)
    | none => st
  kvDel st1 k

/-! ### Physical layouts of a logical key -/

/-- Plain layout: the plain key holds `s`, no metadata, no chunk keys. -/
def PlainLayout (st : Store) (k : Str) (s : Str) : Prop :=
  st k = some s ∧ st (metaKey k) = none ∧ ∀ i, st (chunkKey k i) = none

/-- Chunked layout with chunk list `cs`: metadata records `cs.length`, chunk
key `i` holds `cs[i]` for `i < cs.length`, no further chunk keys, and the
plain key is absent. -/
def ChunkedLayout (st : Store) (k : Str) (cs : List Str) : Prop :=
  st k = none ∧ st (metaKey k) = some (metaString cs.length) ∧
    (∀ i, i < cs.length → st (chunkKey k i) = some (cs.getD i [])) ∧
    (∀ i, cs.length ≤ i → st (chunkKey k i) = none)

/-- The logical key is completely absent. -/
def AbsentLayout (st : Store) (k : Str) : Prop :=
  st k = none ∧ st (metaKey k) = none ∧ ∀ i, st (chunkKey k i) = none

/-- The layout-exclusivity invariant: the logical key is absent, or in exactly
one of the two physical layouts. -/
def ExclusiveState (st : Store) (k : Str) : Prop :=
  AbsentLayout st k ∨ (∃ s, PlainLayout st k s) ∨ ∃ cs, ChunkedLayout st k cs

/-! ### Decimal representation and physical-key facts -/

theorem char_toNat_ofNat {n : Nat} (h : n.isValidChar) : (Char.ofNat n).toNat = n := by
  simp [Char.ofNat, h, Char.toNat, Char.ofNatAux]
  rfl

theorem digitChar_toNat (n : Nat) : (digitChar n).toNat = 48 + n % 10 := by
  have hv : (48 + n % 10).isValidChar := by
    have : n % 10 < 10 := Nat.mod_lt _ (by omega)
    exact Or.inl (by omega)
  simp [digitChar, char_toNat_ofNat hv]

theorem natRepr_ne_nil (n : Nat) : natRepr n ≠ [] := by
  rw [natRepr]
  split
  · simp
  · simp

theorem natRepr_digits (n : Nat) : ∀ c ∈ natRepr n, 48 ≤ c.toNat ∧ c.toNat ≤ 57 := by
  induction n using Nat.strong_induction_on with
  | _ n ih =>
    rw [natRepr]
    split
    · intro c hc
      simp at hc
      subst hc
      have := digitChar_toNat n
      have : n % 10 < 10 := Nat.mod_lt _ (by omega)
      simp [digitChar_toNat]
      omega
    · intro c hc
      rw [List.mem_append] at hc
      rcases hc with hc | hc
      · exact ih (n / 10) (Nat.div_lt_self (by omega) (by omega)) c hc
      · simp at hc
        subst hc
        simp [digitChar_toNat]
        omega

theorem digitsToNat_append_digit (ds : Str) (c : Char) :
    digitsToNat (ds ++ [c]) = digitsToNat ds * 10 + (c.toNat - 48) := by
  simp [digitsToNat]

theorem digitsToNat_natRepr (n : Nat) : digitsToNat (natRepr n) = n := by
  induction n using Nat.strong_induction_on with
  | _ n ih =>
    rw [natRepr]
    split
    · next h =>
      simp [digitsToNat, digitChar_toNat]
      omega
    · next h =>
      rw [digitsToNat_append_digit, ih (n / 10) (Nat.div_lt_self (by omega) (by omega))]
      rw [digitChar_toNat]
      omega

theorem natRepr_injective {a b : Nat} (h : natRepr a = natRepr b) : a = b := by
  have := congrArg digitsToNat h
  rwa [digitsToNat_natRepr, digitsToNat_natRepr] at this

theorem metaKey_ne_base (k : Str) : metaKey k ≠ k := by
  intro h
  have := congrArg List.length h
  simp [metaKey] at this

theorem chunkKey_ne_base (k : Str) (i : Nat) : chunkKey k i ≠ k := by
  intro h
  have := congrArg List.length h
  simp [chunkKey] at this

theorem chunkKey_ne_metaKey (k : Str) (i : Nat) : chunkKey k i ≠ metaKey k := by
  intro h
  rw [chunkKey, metaKey, List.append_assoc] at h
  have h2 := List.append_cancel_left h
  have h3 : ("__chunk_".toList ++ natRepr i).getD 7 ' ' = "__chunks__".toList.getD 7 ' ' := by
    rw [h2]
  have h4 : ("__chunk_".toList ++ natRepr i).getD 7 ' ' = '_' := rfl
  rw [h4] at h3
  exact absurd h3 (by decide)

theorem chunkKey_injective {k : Str} {i j : Nat} (h : chunkKey k i = chunkKey k j) : i = j := by
  rw [chunkKey, chunkKey, List.append_assoc, List.append_assoc] at h
  have h2 := List.append_cancel_left (List.append_cancel_left h)
  exact natRepr_injective h2

theorem natRepr_all_digits (n : Nat) : (natRepr n).all isDigitCh = true := by
  rw [List.all_eq_true]
  intro c hc
  have := natRepr_digits n c hc
  simp [isDigitCh]
  omega

theorem parseChunks_metaString (n : Nat) : parseChunks (metaString n) = some n := by
  have hlen : (10:Nat) = ("\x7b\"chunks\":".toList).length := by decide
  have h1 : (metaString n).take 10 = "\x7b\"chunks\":".toList := by
    rw [metaString, List.append_assoc, hlen, List.take_left]
  have h2 : (metaString n).drop 10 = natRepr n ++ [Char.ofNat 125] := by
    rw [metaString, List.append_assoc, hlen, List.drop_left]
  rw [parseChunks, h1, h2, if_pos rfl, List.reverse_append]
  simp [natRepr_ne_nil n, natRepr_all_digits n, digitsToNat_natRepr]

/-! ### Read-over-write facts for the backing store -/

theorem kvPut_apply_same (st : Store) (k v : Str) : kvPut st k v k = some v := by
  simp [kvPut]

theorem kvPut_apply_other (st : Store) {k q v : Str} (h : q ≠ k) :
    kvPut st k v q = st q := by
  simp [kvPut, h]

theorem kvDel_apply_same (st : Store) (k : Str) : kvDel st k k = none := by
  simp [kvDel]

theorem kvDel_apply_other (st : Store) {k q : Str} (h : q ≠ k) : kvDel st k q = st q := by
  simp [kvDel, h]

theorem delChunksFrom_fst_other (k : Str) :
    ∀ rem (st : Store) i q, (∀ j, i ≤ j → j < i + rem → q ≠ chunkKey k j) →
      (delChunksFrom st k i rem).1 q = st q := by
  intro rem
  induction rem with
  | zero => intro st i q _; rfl
  | succ rem ih =>
    intro st i q hq
    rw [delChunksFrom]
    rw [ih _ (i + 1) q (fun j h1 h2 => hq j (by omega) (by omega))]
    exact kvDel_apply_other st (hq i (by omega) (by omega))

theorem delChunksFrom_fst_chunk (k : Str) :
    ∀ rem (st : Store) i j, i ≤ j → j < i + rem →
      (delChunksFrom st k i rem).1 (chunkKey k j) = none := by
  intro rem
  induction rem with
  | zero => intro st i j h1 h2; omega
  | succ rem ih =>
    intro st i j h1 h2
    rw [delChunksFrom]
    by_cases hj : j = i
    · subst hj
      rw [delChunksFrom_fst_other k rem _ (j + 1) _
        (fun j2 ha hb h => by exact absurd (chunkKey_injective h) (by omega))]
      exact kvDel_apply_same st (chunkKey k j)
    · exact ih _ (i + 1) j (by omega) (by omega)

theorem writeChunksFrom_fst_other (k : Str) :
    ∀ (cs : List Str) (st : Store) i q, (∀ j, j < cs.length → q ≠ chunkKey k (i + j)) →
      (writeChunksFrom st k i cs).1 q = st q := by
  intro cs
  induction cs with
  | nil => intro st i q _; rfl
  | cons c rest ih =>
    intro st i q hq
    rw [writeChunksFrom]
    rw [ih _ (i + 1) q (fun j hj => by
      have := hq (j + 1) (by simp; omega)
      simpa [Nat.add_assoc, Nat.add_comm 1 j] using this)]
    exact kvPut_apply_other st (by simpa using hq 0 (by simp))

theorem writeChunksFrom_fst_chunk (k : Str) :
    ∀ (cs : List Str) (st : Store) i j, j < cs.length →
      (writeChunksFrom st k i cs).1 (chunkKey k (i + j)) = some (cs.getD j []) := by
  intro cs
  induction cs with
  | nil => intro st i j h; simp at h
  | cons c rest ih =>
    intro st i j hj
    rw [writeChunksFrom]
    rcases j with _ | j
    · rw [writeChunksFrom_fst_other k rest _ (i + 1) _
        (fun j2 hb h => by
          have := chunkKey_injective h
          omega)]
      simpa using kvPut_apply_same st (chunkKey k (i + 0)) c
    · have := ih (kvPut st (chunkKey k i) c) (i + 1) j (by simpa using hj)
      simpa [Nat.add_assoc, Nat.add_comm 1 j] using this

theorem delChunksFrom_snd (k : Str) :
    ∀ rem (st : Store) i, (delChunksFrom st k i rem).2 =
      (List.range rem).map (fun j => Event.del (chunkKey k (i + j))) := by
  intro rem
  induction rem with
  | zero => intro st i; rfl
  | succ rem ih =>
    intro st i
    rw [delChunksFrom, List.range_succ_eq_map]
    simp only [List.map_cons, List.map_map]
    rw [ih]
    congr 1
    refine List.map_congr_left (fun j hj => ?e)
    simp only [Function.comp_apply, Nat.succ_eq_add_one]
    have hij : i + 1 + j = i + (j + 1) := by omega
    rw [hij]

theorem writeChunksFrom_snd (k : Str) :
    ∀ (cs : List Str) (st : Store) i, (writeChunksFrom st k i cs).2 =
      (List.range cs.length).map (fun j => Event.put (chunkKey k (i + j)) (cs.getD j [])) := by
  intro cs
  induction cs with
  | nil => intro st i; rfl
  | cons c rest ih =>
    intro st i
    rw [writeChunksFrom, List.length_cons, List.range_succ_eq_map]
    simp only [List.map_cons, List.map_map]
    rw [ih]
    congr 1
    refine List.map_congr_left (fun j hj => ?e)
    simp only [Function.comp_apply, Nat.succ_eq_add_one, List.getD_cons_succ]
    have hij : i + 1 + j = i + (j + 1) := by omega
    rw [hij]

/-! ### Layout of the store after `put` -/

theorem exclusive_meta_cases {st : Store} {k : Str} (hex : ExclusiveState st k) :
    (st (metaKey k) = none ∧ ∀ i, st (chunkKey k i) = none) ∨
      ∃ M, (st (metaKey k)).bind parseChunks = some M ∧ ∀ i, M ≤ i → st (chunkKey k i) = none := by
  rcases hex with ⟨_, hm, hch⟩ | ⟨s, _, hm, hch⟩ | ⟨cs, _, hm, _, hhi⟩
  · exact Or.inl ⟨hm, hch⟩
  · exact Or.inl ⟨hm, hch⟩
  · exact Or.inr ⟨cs.length, by rw [hm]; simpa using parseChunks_metaString cs.length, hhi⟩

theorem delChunksFrom_all_chunks_none {st : Store} {k : Str} {M : Nat}
    (hhi : ∀ i, M ≤ i → st (chunkKey k i) = none) :
    ∀ i, (delChunksFrom st k 0 M).1 (chunkKey k i) = none := by
  intro i
  by_cases hi : i < M
  · exact delChunksFrom_fst_chunk k M st 0 i (by omega) (by omega)
  · rw [delChunksFrom_fst_other k M st 0 _
      (fun j _ _ hq => by have := chunkKey_injective hq; omega)]
    exact hhi i (by omega)

theorem cleanupChunks_chunks_none {st : Store} {k : Str} (hex : ExclusiveState st k) :
    ∀ i, (cleanupChunks st k).1 (chunkKey k i) = none := by
  intro i
  rw [cleanupChunks]
  rcases exclusive_meta_cases hex with ⟨hm, hch⟩ | ⟨M, hm, hhi⟩
  · rw [hm, Option.none_bind]
    exact hch i
  · rw [hm]
    exact delChunksFrom_all_chunks_none hhi i

theorem cleanupChunks_other {st : Store} {k q : Str} (hq : ∀ i, q ≠ chunkKey k i) :
    (cleanupChunks st k).1 q = st q := by
  rw [cleanupChunks]
  cases (st (metaKey k)).bind parseChunks with
  | none => rfl
  | some m => exact delChunksFrom_fst_other k m st 0 q (fun j _ _ => hq j)

theorem putOp_fst_chunked (st : Store) (k s : Str) (hc : needsChunking s = true) :
    (putOp st k s).1 =
      kvDel (kvPut (writeChunksFrom (cleanupChunks st k).1 k 0 (chunkValue s)).1
        (metaKey k) (metaString (chunkValue s).length)) k := by
  rw [putOp, if_pos hc]

theorem putOp_fst_plain_nometa (st : Store) (k s : Str) (hc : needsChunking s = false)
    (hm : (st (metaKey k)).bind parseChunks = none) :
    (putOp st k s).1 = kvPut st k s := by
  rw [putOp, if_neg (by simp [hc])]
  simp only [hm]

theorem putOp_fst_plain_meta (st : Store) (k s : Str) (M : Nat)
    (hc : needsChunking s = false) (hm : (st (metaKey k)).bind parseChunks = some M) :
    (putOp st k s).1 = kvPut (kvDel (delChunksFrom st k 0 M).1 (metaKey k)) k s := by
  rw [putOp, if_neg (by simp [hc])]
  simp only [hm]

theorem putOp_chunked_layout (st : Store) (k s : Str) (hex : ExclusiveState st k)
    (hc : needsChunking s = true) :
    ChunkedLayout (putOp st k s).1 k (chunkValue s) := by
  rw [putOp_fst_chunked st k s hc]
  refine ⟨kvDel_apply_same _ _, ?m, ?lo, ?hi⟩
  case m =>
    rw [kvDel_apply_other _ (metaKey_ne_base k)]
    exact kvPut_apply_same _ _ _
  case lo =>
    intro i hi
    rw [kvDel_apply_other _ (chunkKey_ne_base k i),
      kvPut_apply_other _ (chunkKey_ne_metaKey k i)]
    simpa using writeChunksFrom_fst_chunk k (chunkValue s) (cleanupChunks st k).1 0 i hi
  case hi =>
    intro i hi
    rw [kvDel_apply_other _ (chunkKey_ne_base k i),
      kvPut_apply_other _ (chunkKey_ne_metaKey k i)]
    rw [writeChunksFrom_fst_other k (chunkValue s) _ 0 _
      (fun j hj hq => by have := chunkKey_injective hq; omega)]
    exact cleanupChunks_chunks_none hex i

theorem putOp_plain_layout (st : Store) (k s : Str) (hex : ExclusiveState st k)
    (hc : needsChunking s = false) :
    PlainLayout (putOp st k s).1 k s := by
  rcases exclusive_meta_cases hex with ⟨hm, hch⟩ | ⟨M, hm, hhi⟩
  · rw [putOp_fst_plain_nometa st k s hc (by rw [hm]; rfl)]
    exact ⟨kvPut_apply_same _ _ _,
      by rw [kvPut_apply_other _ (metaKey_ne_base k)]; exact hm,
      fun i => by rw [kvPut_apply_other _ (chunkKey_ne_base k i)]; exact hch i⟩
  · rw [putOp_fst_plain_meta st k s M hc hm]
    refine ⟨kvPut_apply_same _ _ _, ?m, ?ch⟩
    case m =>
      rw [kvPut_apply_other _ (metaKey_ne_base k)]
      exact kvDel_apply_same _ _
    case ch =>
      intro i
      rw [kvPut_apply_other _ (chunkKey_ne_base k i),
        kvDel_apply_other _ (chunkKey_ne_metaKey k i)]
      exact delChunksFrom_all_chunks_none hhi i

/-! ### Delete and get -/

theorem deleteOp_eq_nometa (st : Store) (k : Str)
    (hm : (st (metaKey k)).bind parseChunks = none) : deleteOp st k = kvDel st k := by
  rw [deleteOp]
  simp only [hm]

theorem deleteOp_eq_meta (st : Store) (k : Str) (M : Nat)
    (hm : (st (metaKey k)).bind parseChunks = some M) :
    deleteOp st k = kvDel (kvDel (delChunksFrom st k 0 M).1 (metaKey k)) k := by
  rw [deleteOp]
  simp only [hm]

theorem deleteOp_absent (st : Store) (k : Str) (hex : ExclusiveState st k) :
    AbsentLayout (deleteOp st k) k := by
  rcases exclusive_meta_cases hex with ⟨hm, hch⟩ | ⟨M, hm, hhi⟩
  · rw [deleteOp_eq_nometa st k (by rw [hm]; rfl)]
    exact ⟨kvDel_apply_same _ _,
      by rw [kvDel_apply_other _ (metaKey_ne_base k)]; exact hm,
      fun i => by rw [kvDel_apply_other _ (chunkKey_ne_base k i)]; exact hch i⟩
  · rw [deleteOp_eq_meta st k M hm]
    refine ⟨kvDel_apply_same _ _, ?m, ?ch⟩
    case m =>
      rw [kvDel_apply_other _ (metaKey_ne_base k)]
      exact kvDel_apply_same _ _
    case ch =>
      intro i
      rw [kvDel_apply_other _ (chunkKey_ne_base k i),
        kvDel_apply_other _ (chunkKey_ne_metaKey k i)]
      exact delChunksFrom_all_chunks_none hhi i

theorem deleteOp_of_absent (st : Store) (k : Str) (ha : AbsentLayout st k) :
    deleteOp st k = st := by
  rw [deleteOp_eq_nometa st k (by rw [ha.2.1]; rfl)]
  funext q
  by_cases hq : q = k
  · subst hq
    rw [kvDel_apply_same]
    exact ha.1.symm
  · exact kvDel_apply_other st hq

theorem getOp_of_absent {J : Type} (parse : Str → Option J) (st : Store) (k : Str)
    (ha : AbsentLayout st k) : getOp parse st k = GetResp.ok none := by
  rw [getOp]
  rw [ha.2.1, Option.none_bind]
  rw [plainRead, ha.1]

theorem reconstructFrom_none_of_bad (st : Store) (k : Str) :
    ∀ rem i j, i ≤ j → j < i + rem →
      (st (chunkKey k j) = none ∨ st (chunkKey k j) = some []) →
      reconstructFrom st k i rem = none := by
  intro rem
  induction rem with
  | zero => intro i j h1 h2 _; omega
  | succ rem ih =>
    intro i j h1 h2 hbad
    rw [reconstructFrom]
    by_cases hj : j = i
    · subst hj
      rcases hbad with hb | hb
      · rw [hb]
      · rw [hb]
        simp
    · have hrec := ih (i + 1) j (by omega) (by omega) hbad
      cases hcur : st (chunkKey k i) with
      | none => rfl
      | some c =>
        simp only [hrec, Option.map_none]
        split <;> rfl

theorem getOp_eq_of_reconstruct_none {J : Type} (parse : Str → Option J) (st : Store)
    (k : Str) (n : Nat) (hm : (st (metaKey k)).bind parseChunks = some n)
    (hr : reconstructValue st k n = none) :
    getOp parse st k = plainRead parse st k := by
  simp only [getOp, hm, hr]

theorem getOp_eq_of_reconstruct_empty {J : Type} (parse : Str → Option J) (st : Store)
    (k : Str) (n : Nat) (hm : (st (metaKey k)).bind parseChunks = some n)
    (hr : reconstructValue st k n = some []) :
    getOp parse st k = plainRead parse st k := by
  simp only [getOp, hm, hr]
  rw [if_pos trivial]

theorem getOp_eq_of_reconstruct_some {J : Type} (parse : Str → Option J) (st : Store)
    (k : Str) (n : Nat) (r : Str) (hm : (st (metaKey k)).bind parseChunks = some n)
    (hr : reconstructValue st k n = some r) (hne : r ≠ []) :
    getOp parse st k =
      match parse r with
      | some j => GetResp.ok (some (DataVal.json j))
      | none => GetResp.ok (some (DataVal.raw r)) := by
  simp only [getOp, hm, hr, if_neg hne]

theorem metaKey_bind_some (st : Store) (k : Str) (n : Nat)
    (hm : st (metaKey k) = some (metaString n)) :
    (st (metaKey k)).bind parseChunks = some n := by
  rw [hm, Option.some_bind, parseChunks_metaString]

/-! ### Byte lengths of ASCII runs -/

theorem utf8Encode_cons (c : Char) (s : Str) :
    utf8Encode (c :: s) = utf8EncodeChar c ++ utf8Encode s := by
  simp [utf8Encode]

theorem utf8Encode_append (a b : Str) :
    utf8Encode (a ++ b) = utf8Encode a ++ utf8Encode b := by
  simp [utf8Encode]

theorem utf8Encode_replicate_a (n : Nat) :
    utf8Encode (List.replicate n 'a') = List.replicate n 97 := by
  induction n with
  | zero => rfl
  | succ n ih =>
    rw [List.replicate_succ, utf8Encode_cons, ih]
    rfl

theorem utf8ByteLength_replicate_a (n : Nat) :
    utf8ByteLength (List.replicate n 'a') = n := by
  rw [utf8ByteLength, utf8Encode_replicate_a, List.length_replicate]

theorem needsChunking_replicate_big :
    needsChunking (List.replicate (MAX_CHUNK_SIZE + 1) 'a') = true := by
  rw [needsChunking]
  have h := utf8ByteLength_replicate_a (MAX_CHUNK_SIZE + 1)
  rw [utf8ByteLength] at h
  rw [h]
  simp

theorem needsChunking_replicate_eq :
    needsChunking (List.replicate MAX_CHUNK_SIZE 'a') = false := by
  rw [needsChunking]
  have h := utf8ByteLength_replicate_a MAX_CHUNK_SIZE
  rw [utf8ByteLength] at h
  rw [h]
  simp

/-! ### Concrete states used to witness the theorems -/

/-- The logical key used in concrete scenarios. -/
def docKey : Str := "doc".toList

/-- A store with no keys at all. -/
def emptyStore : Store := fun _ => none

/-- Chunked metadata claiming one chunk, but the chunk key absent (an
out-of-band deletion), and no plain key. -/
def metaOnlyStore : Store :=
  fun q => if q = metaKey docKey then some (metaString 1) else none

/-- A plain-layout store: only the plain key is present. -/
def plainOnlyStore : Store :=
  fun q => if q = docKey then some "1".toList else none

theorem emptyStore_absent (k : Str) : AbsentLayout emptyStore k :=
  ⟨rfl, rfl, fun _ => rfl⟩

theorem plainOnlyStore_plain : PlainLayout plainOnlyStore docKey "1".toList :=
  ⟨by rw [plainOnlyStore, if_pos rfl],
   by rw [plainOnlyStore, if_neg (metaKey_ne_base docKey)],
   fun i => by rw [plainOnlyStore, if_neg (chunkKey_ne_base docKey i)]⟩

theorem metaOnlyStore_meta : metaOnlyStore (metaKey docKey) = some (metaString 1) := by
  rw [metaOnlyStore, if_pos rfl]

theorem metaOnlyStore_chunk (i : Nat) : metaOnlyStore (chunkKey docKey i) = none := by
  rw [metaOnlyStore, if_neg (chunkKey_ne_metaKey docKey i)]

theorem metaOnlyStore_plain : metaOnlyStore docKey = none := by
  rw [metaOnlyStore, if_neg (Ne.symm (metaKey_ne_base docKey))]

/-! ### The claims -/

/-- C5: `needsChunking s` is true iff the UTF-8 byte length of `s` strictly
exceeds `MAX_CHUNK_SIZE`; in particular it is false at byte length exactly
`MAX_CHUNK_SIZE` and true at `MAX_CHUNK_SIZE + 1`. -/
theorem needsChunking_threshold :
    (∀ s : Str, needsChunking s = true ↔ MAX_CHUNK_SIZE < utf8ByteLength s) ∧
    (∀ s : Str, utf8ByteLength s = MAX_CHUNK_SIZE → needsChunking s = false) ∧
    (∀ s : Str, utf8ByteLength s = MAX_CHUNK_SIZE + 1 → needsChunking s = true) := by
  refine ⟨fun s => ?c1, fun s h => ?c2, fun s h => ?c3⟩
  case c1 => simp [needsChunking, utf8ByteLength]
  case c2 =>
    rw [needsChunking]
    rw [utf8ByteLength] at h
    rw [h]
    simp
  case c3 =>
    rw [needsChunking]
    rw [utf8ByteLength] at h
    rw [h]
    simp

/-- Witness for C5 at the exact boundary lengths. -/
theorem needsChunking_threshold_witness :
    needsChunking (List.replicate MAX_CHUNK_SIZE 'a') = false ∧
    needsChunking (List.replicate (MAX_CHUNK_SIZE + 1) 'a') = true :=
  ⟨needsChunking_threshold.2.1 _ (utf8ByteLength_replicate_a _),
   needsChunking_threshold.2.2 _ (utf8ByteLength_replicate_a _)⟩

/-- C2: from a state where the logical key is absent or in exactly one
physical layout, a completed `put` leaves it in exactly the layout matching
the new value's size, with every physical key of the prior layout removed
(in particular no chunk key at or beyond the new chunk count, and no chunk or
metadata key at all after a small `put`). -/
theorem put_layout_exclusive (st : Store) (k s : Str) (hex : ExclusiveState st k) :
    (needsChunking s = true → ChunkedLayout (putOp st k s).1 k (chunkValue s)) ∧
    (needsChunking s = false → PlainLayout (putOp st k s).1 k s) ∧
    ExclusiveState (putOp st k s).1 k := by
  refine ⟨putOp_chunked_layout st k s hex, putOp_plain_layout st k s hex, ?ex⟩
  cases hc : needsChunking s with
  | true => exact Or.inr (Or.inr ⟨chunkValue s, putOp_chunked_layout st k s hex hc⟩)
  | false => exact Or.inr (Or.inl ⟨s, putOp_plain_layout st k s hex hc⟩)

/-- Witness for C2: a small put into the empty store. -/
theorem put_layout_exclusive_witness :
    ExclusiveState emptyStore docKey ∧
    ((needsChunking "1".toList = true →
        ChunkedLayout (putOp emptyStore docKey "1".toList).1 docKey (chunkValue "1".toList)) ∧
      (needsChunking "1".toList = false →
        PlainLayout (putOp emptyStore docKey "1".toList).1 docKey "1".toList) ∧
      ExclusiveState (putOp emptyStore docKey "1".toList).1 docKey) :=
  ⟨Or.inl (emptyStore_absent docKey),
   put_layout_exclusive emptyStore docKey "1".toList (Or.inl (emptyStore_absent docKey))⟩

/-- C7: `delete` removes the metadata key, every chunk key named by the
metadata and the plain key, a subsequent `get` returns null, and deleting an
absent logical key succeeds unchanged (so a second delete is a no-op). -/
theorem delete_complete_idempotent {J : Type} (parse : Str → Option J) (st : Store)
    (k : Str) (hex : ExclusiveState st k) :
    AbsentLayout (deleteOp st k) k ∧
    getOp parse (deleteOp st k) k = GetResp.ok none ∧
    deleteOp (deleteOp st k) k = deleteOp st k := by
  have ha := deleteOp_absent st k hex
  exact ⟨ha, getOp_of_absent parse _ k ha, deleteOp_of_absent _ k ha⟩

/-- Witness for C7: deleting the plain-layout store. -/
theorem delete_complete_idempotent_witness :
    AbsentLayout (deleteOp plainOnlyStore docKey) docKey ∧
    getOp (fun _ => (none : Option Unit)) (deleteOp plainOnlyStore docKey) docKey =
      GetResp.ok none ∧
    deleteOp (deleteOp plainOnlyStore docKey) docKey = deleteOp plainOnlyStore docKey :=
  delete_complete_idempotent (fun _ => none) plainOnlyStore docKey
    (Or.inr (Or.inl ⟨"1".toList, plainOnlyStore_plain⟩))

/-- C3: when the metadata for a logical key claims `n` chunks, some chunk key
below `n` reads back null, and the plain key is absent (the normal chunked
layout), reconstruction returns null and `get` answers null / not-found
instead of a truncated document. -/
theorem missing_chunk_failfast {J : Type} (parse : Str → Option J) (st : Store)
    (k : Str) (n i : Nat) (hm : st (metaKey k) = some (metaString n)) (hi : i < n)
    (hmiss : st (chunkKey k i) = none) (hplain : st k = none) :
    reconstructValue st k n = none ∧ getOp parse st k = GetResp.ok none := by
  have hr : reconstructValue st k n = none :=
    reconstructFrom_none_of_bad st k n 0 i (by omega) (by omega) (Or.inl hmiss)
  refine ⟨hr, ?g⟩
  rw [getOp_eq_of_reconstruct_none parse st k n (metaKey_bind_some st k n hm) hr]
  rw [plainRead, hplain]

/-- Witness for C3: metadata claiming one chunk whose chunk key is absent. -/
theorem missing_chunk_failfast_witness :
    reconstructValue metaOnlyStore docKey 1 = none ∧
    getOp (fun _ => (none : Option Unit)) metaOnlyStore docKey = GetResp.ok none :=
  missing_chunk_failfast (fun _ => none) metaOnlyStore docKey 1 0
    metaOnlyStore_meta (by omega) (metaOnlyStore_chunk 0) metaOnlyStore_plain

/-- C4 counterexample: the NotFound condition (key absent in both layouts,
`emptyStore`) and the IntegrityError condition (metadata present, a claimed
chunk missing, `metaOnlyStore`) produce the **same** response
`\x7bsuccess: true, data: null\x7d`, so the two conditions are not
distinguishable by the caller, contrary to the claim. -/
theorem notfound_integrity_same_response :
    AbsentLayout emptyStore docKey ∧
    metaOnlyStore (metaKey docKey) = some (metaString 1) ∧
    metaOnlyStore (chunkKey docKey 0) = none ∧
    metaOnlyStore docKey = none ∧
    getOp (fun _ => (none : Option Unit)) emptyStore docKey =
      getOp (fun _ => (none : Option Unit)) metaOnlyStore docKey := by
  refine ⟨emptyStore_absent docKey, metaOnlyStore_meta, metaOnlyStore_chunk 0,
    metaOnlyStore_plain, ?same⟩
  rw [getOp_of_absent _ _ _ (emptyStore_absent docKey)]
  have hr : reconstructValue metaOnlyStore docKey 1 = none :=
    reconstructFrom_none_of_bad metaOnlyStore docKey 1 0 0 (by omega) (by omega)
      (Or.inl (metaOnlyStore_chunk 0))
  rw [getOp_eq_of_reconstruct_none _ _ _ 1 (metaKey_bind_some _ _ 1 metaOnlyStore_meta) hr]
  rw [plainRead, metaOnlyStore_plain]

/-- C4 amended: the NotFound condition and the IntegrityError condition (with
no stale plain value) both produce the response `\x7bsuccess: true,
data: null\x7d`; the caller cannot distinguish them (only server-side logging
differs). -/
theorem notfound_integrity_both_null {J : Type} (parse : Str → Option J)
    (st1 st2 : Store) (k : Str) (n i : Nat) (ha : AbsentLayout st1 k)
    (hm : st2 (metaKey k) = some (metaString n)) (hi : i < n)
    (hmiss : st2 (chunkKey k i) = none) (hplain : st2 k = none) :
    getOp parse st1 k = GetResp.ok none ∧ getOp parse st2 k = GetResp.ok none := by
  refine ⟨getOp_of_absent parse st1 k ha, ?g⟩
  have hr : reconstructValue st2 k n = none :=
    reconstructFrom_none_of_bad st2 k n 0 i (by omega) (by omega) (Or.inl hmiss)
  rw [getOp_eq_of_reconstruct_none parse st2 k n (metaKey_bind_some st2 k n hm) hr]
  rw [plainRead, hplain]

/-- Witness for the amended C4. -/
theorem notfound_integrity_both_null_witness :
    getOp (fun _ => (none : Option Unit)) emptyStore docKey = GetResp.ok none ∧
    getOp (fun _ => (none : Option Unit)) metaOnlyStore docKey = GetResp.ok none :=
  notfound_integrity_both_null (fun _ => none) emptyStore metaOnlyStore docKey 1 0
    (emptyStore_absent docKey) metaOnlyStore_meta (by omega) (metaOnlyStore_chunk 0)
    metaOnlyStore_plain

theorem putOp_snd_chunked (st : Store) (k s : Str) (hc : needsChunking s = true) :
    (putOp st k s).2 = Event.getJson (metaKey k) :: (cleanupChunks st k).2 ++
      (writeChunksFrom (cleanupChunks st k).1 k 0 (chunkValue s)).2 ++
      [Event.put (metaKey k) (metaString (chunkValue s).length), Event.del k] := by
  rw [putOp, if_pos hc]

/-- C6: a chunked `put` issues, in program order, the old-metadata read, the
old-chunk deletes, the new chunk writes in index order `0..N-1`, then the
metadata write, and only then the delete of the old plain key. -/
theorem put_chunked_trace (st : Store) (k s : Str) (hc : needsChunking s = true) :
    (putOp st k s).2 = Event.getJson (metaKey k) :: (cleanupChunks st k).2 ++
      (List.range (chunkValue s).length).map
        (fun j => Event.put (chunkKey k j) ((chunkValue s).getD j [])) ++
      [Event.put (metaKey k) (metaString (chunkValue s).length), Event.del k] ∧
    (∀ M, (st (metaKey k)).bind parseChunks = some M →
      (cleanupChunks st k).2 = (List.range M).map (fun j => Event.del (chunkKey k j))) ∧
    ((st (metaKey k)).bind parseChunks = none → (cleanupChunks st k).2 = []) := by
  refine ⟨?tr, ?cl, ?cl0⟩
  case tr =>
    rw [putOp_snd_chunked st k s hc, writeChunksFrom_snd k (chunkValue s) _ 0]
    simp only [Nat.zero_add]
  case cl =>
    intro M hm
    rw [cleanupChunks]
    simp only [hm]
    rw [delChunksFrom_snd k M st 0]
    simp only [Nat.zero_add]
  case cl0 =>
    intro hm
    rw [cleanupChunks]
    simp only [hm]

/-- A string one byte over the chunking threshold. -/
def bigAs : Str := List.replicate (MAX_CHUNK_SIZE + 1) 'a'

theorem needsChunking_bigAs : needsChunking bigAs = true :=
  needsChunking_replicate_big

/-- Witness for C6: the chunked put of `bigAs` into the empty store. -/
theorem put_chunked_trace_witness :
    needsChunking bigAs = true ∧
    ((putOp emptyStore docKey bigAs).2 = Event.getJson (metaKey docKey) ::
        (cleanupChunks emptyStore docKey).2 ++
        (List.range (chunkValue bigAs).length).map
          (fun j => Event.put (chunkKey docKey j) ((chunkValue bigAs).getD j [])) ++
        [Event.put (metaKey docKey) (metaString (chunkValue bigAs).length),
          Event.del docKey] ∧
      (∀ M, (emptyStore (metaKey docKey)).bind parseChunks = some M →
        (cleanupChunks emptyStore docKey).2 =
          (List.range M).map (fun j => Event.del (chunkKey docKey j))) ∧
      ((emptyStore (metaKey docKey)).bind parseChunks = none →
        (cleanupChunks emptyStore docKey).2 = [])) :=
  ⟨needsChunking_bigAs, put_chunked_trace emptyStore docKey bigAs needsChunking_bigAs⟩

/-- A chunked-layout store with one chunk holding `"ab"`. -/
def chunked1Store : Store :=
  fun q => if q = chunkKey docKey 0 then some "ab".toList
    else if q = metaKey docKey then some (metaString 1) else none

theorem chunked1Store_meta : chunked1Store (metaKey docKey) = some (metaString 1) := by
  rw [chunked1Store, if_neg (Ne.symm (chunkKey_ne_metaKey docKey 0)), if_pos rfl]

theorem chunked1Store_chunk0 : chunked1Store (chunkKey docKey 0) = some "ab".toList := by
  rw [chunked1Store, if_pos rfl]

theorem chunked1Store_reconstruct :
    reconstructValue chunked1Store docKey 1 = some "ab".toList := by
  rw [reconstructValue]
  rw [show (1:Nat) = 0 + 1 from rfl, reconstructFrom, chunked1Store_chunk0]
  simp [reconstructFrom]

/-- C8: when a chunked key's reconstruction succeeds (truthy), `get` returns
the JSON-parsed document when `JSON.parse` succeeds, and the raw reconstructed
string when parsing throws — never an error. -/
theorem get_parse_fallback {J : Type} (parse : Str → Option J) (st : Store) (k : Str)
    (n : Nat) (r : Str) (hm : st (metaKey k) = some (metaString n))
    (hr : reconstructValue st k n = some r) (hne : r ≠ []) :
    (∀ j, parse r = some j → getOp parse st k = GetResp.ok (some (DataVal.json j))) ∧
    (parse r = none → getOp parse st k = GetResp.ok (some (DataVal.raw r))) := by
  have h := getOp_eq_of_reconstruct_some parse st k n r (metaKey_bind_some st k n hm) hr hne
  constructor
  · intro j hj
    rw [h, hj]
  · intro hj
    rw [h, hj]

/-- A parse function that parses exactly the string `"ab"`. -/
def parseAb : Str → Option Nat := fun r => if r = "ab".toList then some 7 else none

/-- Witness for C8: both the parsed branch and the raw-fallback branch. -/
theorem get_parse_fallback_witness :
    getOp parseAb chunked1Store docKey = GetResp.ok (some (DataVal.json 7)) ∧
    getOp (fun _ => (none : Option Nat)) chunked1Store docKey =
      GetResp.ok (some (DataVal.raw "ab".toList)) :=
  ⟨(get_parse_fallback parseAb chunked1Store docKey 1 "ab".toList chunked1Store_meta
      chunked1Store_reconstruct (by decide)).1 7 (by rw [parseAb, if_pos rfl]),
   (get_parse_fallback (fun _ => none) chunked1Store docKey 1 "ab".toList chunked1Store_meta
      chunked1Store_reconstruct (by decide)).2 rfl⟩

/-- C9: a chunk that reads back as the empty string is treated like a missing
chunk (`if (!chunk)`), so reconstruction returns null; and a reconstruction
whose overall result is the empty string is treated as a reconstruction
failure by `get` (`if (reconstructed)`), which falls through to the plain
key. -/
theorem empty_chunk_treated_missing {J : Type} (parse : Str → Option J) :
    (∀ (st : Store) (k : Str) (n i : Nat), i < n → st (chunkKey k i) = some [] →
      reconstructValue st k n = none) ∧
    (∀ (st : Store) (k : Str) (n : Nat), st (metaKey k) = some (metaString n) →
      reconstructValue st k n = some [] → getOp parse st k = plainRead parse st k) := by
  constructor
  · intro st k n i hi hempty
    exact reconstructFrom_none_of_bad st k n 0 i (by omega) (by omega) (Or.inr hempty)
  · intro st k n hm hr
    exact getOp_eq_of_reconstruct_empty parse st k n (metaKey_bind_some st k n hm) hr

/-- A store whose single chunk is the empty string. -/
def emptyChunkStore : Store :=
  fun q => if q = chunkKey docKey 0 then some []
    else if q = metaKey docKey then some (metaString 1) else none

theorem emptyChunkStore_chunk0 : emptyChunkStore (chunkKey docKey 0) = some [] := by
  rw [emptyChunkStore, if_pos rfl]

/-- A store whose metadata claims zero chunks. -/
def metaZeroStore : Store :=
  fun q => if q = metaKey docKey then some (metaString 0) else none

theorem metaZeroStore_meta : metaZeroStore (metaKey docKey) = some (metaString 0) := by
  rw [metaZeroStore, if_pos rfl]

/-- Witness for C9: an empty chunk aborts reconstruction; a zero-chunk
metadata (whose reconstruction is the empty string) makes `get` fall through
to the plain read. -/
theorem empty_chunk_treated_missing_witness :
    reconstructValue emptyChunkStore docKey 1 = none ∧
    getOp (fun _ => (none : Option Unit)) metaZeroStore docKey =
      plainRead (fun _ => none) metaZeroStore docKey :=
  ⟨(empty_chunk_treated_missing (fun _ => (none : Option Unit))).1 emptyChunkStore docKey
      1 0 (by omega) emptyChunkStore_chunk0,
   (empty_chunk_treated_missing (fun _ => (none : Option Unit))).2 metaZeroStore docKey
      0 metaZeroStore_meta rfl⟩

/-- C10: when metadata is present but chunk reconstruction fails, `get` does
not return null directly: it falls through to the plain physical key and
returns whatever is stored there (the parsed plain value when present, null
when absent). -/
theorem broken_chunks_fall_through {J : Type} (parse : Str → Option J) (st : Store)
    (k : Str) (n : Nat) (hm : st (metaKey k) = some (metaString n))
    (hr : reconstructValue st k n = none) :
    getOp parse st k = plainRead parse st k ∧
    (∀ s j, st k = some s → parse s = some j →
      getOp parse st k = GetResp.ok (some (DataVal.json j))) ∧
    (st k = none → getOp parse st k = GetResp.ok none) := by
  have h := getOp_eq_of_reconstruct_none parse st k n (metaKey_bind_some st k n hm) hr
  refine ⟨h, ?pj, ?pn⟩
  case pj =>
    intro s j hs hj
    rw [h, plainRead, hs]
    simp only [hj]
  case pn =>
    intro hs
    rw [h, plainRead, hs]

/-- Broken chunked metadata coexisting with a stale plain value `"t"`. -/
def brokenPlainStore : Store :=
  fun q => if q = metaKey docKey then some (metaString 1)
    else if q = docKey then some "t".toList else none

theorem brokenPlainStore_meta : brokenPlainStore (metaKey docKey) = some (metaString 1) := by
  rw [brokenPlainStore, if_pos rfl]

theorem brokenPlainStore_plain : brokenPlainStore docKey = some "t".toList := by
  rw [brokenPlainStore, if_neg (Ne.symm (metaKey_ne_base docKey)), if_pos rfl]

theorem brokenPlainStore_chunk (i : Nat) : brokenPlainStore (chunkKey docKey i) = none := by
  rw [brokenPlainStore, if_neg (chunkKey_ne_metaKey docKey i),
    if_neg (chunkKey_ne_base docKey i)]

/-- A parse function that parses exactly the string `"t"`. -/
def parseT : Str → Option Nat := fun s => if s = "t".toList then some 3 else none

/-- Witness for C10: `get` on the broken store returns the stale plain value. -/
theorem broken_chunks_fall_through_witness :
    getOp parseT brokenPlainStore docKey = plainRead parseT brokenPlainStore docKey ∧
    (∀ s j, brokenPlainStore docKey = some s → parseT s = some j →
      getOp parseT brokenPlainStore docKey = GetResp.ok (some (DataVal.json j))) ∧
    (brokenPlainStore docKey = none →
      getOp parseT brokenPlainStore docKey = GetResp.ok none) :=
  broken_chunks_fall_through parseT brokenPlainStore docKey 1 brokenPlainStore_meta
    (reconstructFrom_none_of_bad brokenPlainStore docKey 1 0 0 (by omega) (by omega)
      (Or.inl (brokenPlainStore_chunk 0)))

/-! ### C1: the round-trip law at a chunk boundary inside a code point

`sBad` is `MAX_CHUNK_SIZE - 1` copies of `'a'` followed by `'é'` (U+00E9,
2 UTF-8 bytes), so its byte length is `MAX_CHUNK_SIZE + 1` and the boundary of
the first chunk falls between the two bytes of `'é'`.  The backoff moves
`chunkEnd` to `MAX_CHUNK_SIZE - 1`, but the loop variable still advances by
`MAX_CHUNK_SIZE`, so the lead byte `0xC3` is skipped and the second chunk
starts with the orphan continuation byte `0xA9`. -/

def sBad : Str := List.replicate (MAX_CHUNK_SIZE - 1) 'a' ++ ['é']

def badBytes : List Nat := List.replicate (MAX_CHUNK_SIZE - 1) 97 ++ [195, 169]

theorem utf8Encode_sBad : utf8Encode sBad = badBytes := by
  rw [sBad, badBytes, utf8Encode_append, utf8Encode_replicate_a]
  congr 1

theorem one_le_max_chunk : 1 ≤ MAX_CHUNK_SIZE := by decide

theorem badBytes_length : badBytes.length = MAX_CHUNK_SIZE + 1 := by
  have h1 := one_le_max_chunk
  rw [badBytes, List.length_append, List.length_replicate]
  simp
  omega


theorem badBytes_getD_M : badBytes.getD MAX_CHUNK_SIZE 0 = 169 := by
  have h1 := one_le_max_chunk
  rw [badBytes, List.getD, List.get?_eq_getElem?,
    List.getElem?_append_right (by simp)]
  have h2 : MAX_CHUNK_SIZE - (List.replicate (MAX_CHUNK_SIZE - 1) (97:Nat)).length = 1 := by
    simp
    omega
  rw [h2]
  rfl

theorem badBytes_getD_M1 : badBytes.getD (MAX_CHUNK_SIZE - 1) 0 = 195 := by
  rw [badBytes, List.getD, List.get?_eq_getElem?, List.getElem?_append_right (by simp)]
  have h2 : MAX_CHUNK_SIZE - 1 - (List.replicate (MAX_CHUNK_SIZE - 1) (97:Nat)).length = 0 := by
    simp
  rw [h2]
  rfl

theorem backOff_badBytes : backOff badBytes 0 MAX_CHUNK_SIZE = MAX_CHUNK_SIZE - 1 := by
  have h1 := one_le_max_chunk
  rw [backOff, if_pos ⟨by omega, by rw [badBytes_getD_M]; decide⟩]
  rw [backOff, if_neg ?neg]
  case neg =>
    rintro ⟨_, hc⟩
    rw [badBytes_getD_M1] at hc
    exact absurd hc (by decide)

theorem chunkLoop_step (csize : Nat) (bytes : List Nat) (i : Nat)
    (h1 : i < bytes.length) (h2 : 0 < csize) :
    chunkLoop csize bytes i =
      ((bytes.drop i).take ((if min (i + csize) bytes.length < bytes.length
          then backOff bytes i (min (i + csize) bytes.length)
          else min (i + csize) bytes.length) - i)) :: chunkLoop csize bytes (i + csize) := by
  rw [chunkLoop, dif_pos ⟨h1, h2⟩]

theorem chunkLoop_stop (csize : Nat) (bytes : List Nat) (i : Nat)
    (h : ¬ i < bytes.length) : chunkLoop csize bytes i = [] := by
  rw [chunkLoop, dif_neg (by tauto)]

theorem drop_len_succ (a : List Nat) (x y : Nat) (n : Nat) (h : n = a.length + 1) :
    (a ++ [x, y]).drop n = [y] := by
  subst h
  have h2 := @List.drop_append _ a [x, y] 1
  rw [h2]
  rfl

theorem chunkLoop_badBytes :
    chunkLoop MAX_CHUNK_SIZE badBytes 0 =
      [List.replicate (MAX_CHUNK_SIZE - 1) 97, [169]] := by
  have h1 := one_le_max_chunk
  have hlen := badBytes_length
  rw [chunkLoop_step MAX_CHUNK_SIZE badBytes 0 (by omega) (by omega)]
  have hmin : min (0 + MAX_CHUNK_SIZE) badBytes.length = MAX_CHUNK_SIZE := by
    rw [hlen]
    omega
  rw [hmin, if_pos (by omega), backOff_badBytes]
  rw [Nat.zero_add, chunkLoop_step MAX_CHUNK_SIZE badBytes MAX_CHUNK_SIZE (by omega) (by omega)]
  have hmin2 : min (MAX_CHUNK_SIZE + MAX_CHUNK_SIZE) badBytes.length = MAX_CHUNK_SIZE + 1 := by
    rw [hlen]
    omega
  rw [hmin2, if_neg (by omega)]
  rw [chunkLoop_stop MAX_CHUNK_SIZE badBytes (MAX_CHUNK_SIZE + MAX_CHUNK_SIZE) (by omega)]
  have hdrop0 : badBytes.drop 0 = badBytes := List.drop_zero badBytes
  rw [hdrop0]
  have htake : badBytes.take (MAX_CHUNK_SIZE - 1 - 0) = List.replicate (MAX_CHUNK_SIZE - 1) 97 := by
    rw [Nat.sub_zero, badBytes, List.take_left' (by simp)]
  have hdropM : badBytes.drop MAX_CHUNK_SIZE = [169] := by
    rw [badBytes]
    exact drop_len_succ _ 195 169 _ (by simp; omega)
  have hsub : MAX_CHUNK_SIZE + 1 - MAX_CHUNK_SIZE = 1 := by omega
  rw [htake, hdropM, hsub]
  rfl

theorem utf8Decode_replicate_97 (n : Nat) :
    utf8Decode (List.replicate n 97) = List.replicate n 'a' := by
  induction n with
  | zero => rw [List.replicate_zero, List.replicate_zero, utf8Decode.eq_def]
  | succ n ih =>
    rw [List.replicate_succ, List.replicate_succ, utf8Decode.eq_def]
    norm_num [ih]

theorem utf8Decode_orphan_cont : utf8Decode [169] = [replChar] := by
  rw [utf8Decode.eq_def]
  norm_num
  rw [utf8Decode.eq_def]

theorem chunkValue_sBad :
    chunkValue sBad = [List.replicate (MAX_CHUNK_SIZE - 1) 'a', [replChar]] := by
  rw [chunkValue, utf8Encode_sBad, chunkLoop_badBytes]
  rw [List.map_cons, List.map_cons, List.map_nil, utf8Decode_replicate_97,
    utf8Decode_orphan_cont]

/-- C1: the round-trip law of the Chunk Codec FAILS on the code as written.
For `sBad` (byte length `MAX_CHUNK_SIZE + 1`, with the two-byte code point
`'é'` straddling the first chunk boundary), the chunker emits the chunks
`[replicate (MAX_CHUNK_SIZE - 1) 'a', "�"]`: the backed-off lead byte
`0xC3` is silently dropped (the loop advances `i` by a fixed
`MAX_CHUNK_SIZE`) and the orphan continuation byte decodes to U+FFFD, so
concatenating the chunks does not reproduce `sBad`. -/
theorem chunkValue_roundtrip_bug :
    MAX_CHUNK_SIZE < utf8ByteLength sBad ∧
    chunkValue sBad = [List.replicate (MAX_CHUNK_SIZE - 1) 'a', [replChar]] ∧
    (chunkValue sBad).flatten ≠ sBad := by
  refine ⟨?len, chunkValue_sBad, ?ne⟩
  case len =>
    rw [utf8ByteLength, utf8Encode_sBad, badBytes_length]
    omega
  case ne =>
    rw [chunkValue_sBad, sBad]
    intro h
    simp only [List.flatten, List.append_nil] at h
    have h2 := List.append_cancel_left h
    have h3 : replChar = 'é' := by
      injection h2
    exact absurd h3 (by decide)
